import Mathlib

/-!
Shallow embedding of the CCF-ZKCS KV-cache core
(src/ml/features/ccf_zkcs: handler.py, cache_manager.py, merkle_dag.py)
and proofs about it.

Modelling conventions:
* Python `bytes` values (cache keys, payloads, file contents) are `List Nat`
  whose elements are byte values.
* Python `dict` objects (`MerkleDAG.nodes`, the cache directory) are
  insertion-ordered association lists with the update-in-place semantics of
  `dictSet` / `dictDel`; keys are unique in any state built through the API.
* Python `float` timestamps from `time.time()` are `Nat` values passed in
  explicitly as a `now` argument by the caller of each operation.
* `blake3(...).digest()` and `hmac.new(key, data, blake3).digest()` are
  abstract functions `b3 : List Nat → List Nat` / `mac : List Nat → List Nat`
  passed as parameters; theorems that need it assume their digests have
  length 32, as the real digests do.
* Python exceptions become `Except` / result values.  Every raise site in the
  modelled code fires before the function mutates shared state, except where
  explicitly threaded (the corrupt-read path of `read_cache`).
* `MerkleDAG.remove_node` recurses along child links; Python terminates on
  every state its own API can build (child links always point to
  later-created nodes).  The model uses explicit fuel, which the proofs show
  is never exhausted on such states.
-/

/-- Association-list lookup: first binding wins, like a Python dict read. -/
def dictGet {V : Type} : List (List Nat × V) → List Nat → Option V
  | [], _ => none
  | e :: rest, k => if e.1 = k then some e.2 else dictGet rest k

/-- Association-list update: replace the first binding in place, else append;
this is the semantics of `d[k] = v` on an insertion-ordered Python dict. -/
def dictSet {V : Type} : List (List Nat × V) → List Nat → V → List (List Nat × V)
  | [], k, v => [(k, v)]
  | e :: rest, k, v => if e.1 = k then (k, v) :: rest else e :: dictSet rest k v

/-- Association-list deletion of every binding for a key; on the unique-key
states produced by the API this is exactly Python `del d[k]`. -/
def dictDel {V : Type} : List (List Nat × V) → List Nat → List (List Nat × V)
  | [], _ => []
  | e :: rest, k => if e.1 = k then dictDel rest k else e :: dictDel rest k

/-- Remove the first occurrence of an element, like Python `list.remove`
(callers in the source guard with an `in` test first). -/
def removeFirst : List (List Nat) → List Nat → List (List Nat)
  | [], _ => []
  | x :: xs, k => if x = k then xs else x :: removeFirst xs k

/-- Configuration constant from config.py. -/
def MAX_SEGMENT_MB : Nat := 2048

/-- Configuration constant from config.py. -/
def MAX_FANOUT : Nat := 256

/-- Configuration constant from config.py. -/
def MAX_TOKENS_PER_REQUEST : Nat := 32768

/-- Segment size cap in bytes; `write_cache` compares
`len(data) / 1024**2 > MAX_SEGMENT_MB`, and division of a Python int of this
magnitude by `2**20` is exact in binary floating point, so the comparison is
equivalent to `len(data) > MAX_SEGMENT_MB * 1024**2`. -/
def MAX_SEGMENT_BYTES : Nat := MAX_SEGMENT_MB * 1024 ^ 2

/-- Node of the merkle DAG (merkle_dag.py, `MerkleNode`). -/
structure MerkleNode where
  cache_key : List Nat
  parent_key : Option (List Nat)
  children_keys : List (List Nat)
  refcount : Nat
  size_bytes : Nat
  access_timestamp : Nat
deriving DecidableEq, Repr

/-- State of the merkle DAG (merkle_dag.py, `MerkleDAG`); `total_size_bytes`
is the incrementally maintained `_total_size_bytes` counter, kept as an
integer because Python subtracts without a floor. -/
structure MerkleDAG where
  nodes : List (List Nat × MerkleNode)
  root_keys : List (List Nat)
  total_size_bytes : Int
deriving DecidableEq, Repr

/-- Empty DAG, as built by `MerkleDAG.__init__`. -/
def MerkleDAG.empty : MerkleDAG := ⟨[], [], 0⟩

/-- Errors raised by merkle_dag.py operations (`ValueError` variants), plus
the two model-only markers for states on which the Python recursion would
itself fail (`keyError` for `del` of a vanished key, `recursionLimit` for a
cyclic child chain). -/
inductive DagError
  | parentNotFound : List Nat → DagError
  | fanoutExceeded : DagError
  | pinned : List Nat → DagError
  | keyError : DagError
  | recursionLimit : DagError
deriving DecidableEq, Repr

/-- Insert a node (merkle_dag.py `MerkleDAG.add_node`).  Mirrors the source
order: parent-existence check, fanout check inside `MerkleNode.add_child`
(raising before any list mutation), parent update or root append, then the
dict store and the counter increment.  A duplicate `cache_key` silently
overwrites the stored node, exactly as `self.nodes[cache_key] = node` does. -/
def MerkleDAG.add_node (dag : MerkleDAG) (cache_key : List Nat)
    (parent_key : Option (List Nat)) (size_bytes : Nat) (now : Nat) :
    Except DagError MerkleDAG :=
  match parent_key with
  | some p =>
    match dictGet dag.nodes p with
    | none => .error (.parentNotFound p)
    | some pn =>
      if pn.children_keys.length ≥ MAX_FANOUT then .error .fanoutExceeded
      else
        let pn' := if cache_key ∈ pn.children_keys then pn
          else { pn with children_keys := pn.children_keys ++ [cache_key] }
        let node : MerkleNode := ⟨cache_key, some p, [], 0, size_bytes, now⟩
        let nodes1 := dictSet dag.nodes p pn'
        .ok { dag with
              nodes := dictSet nodes1 cache_key node,
              total_size_bytes := dag.total_size_bytes + size_bytes }
  | none =>
      let node : MerkleNode := ⟨cache_key, none, [], 0, size_bytes, now⟩
      .ok { nodes := dictSet dag.nodes cache_key node,
            root_keys := dag.root_keys ++ [cache_key],
            total_size_bytes := dag.total_size_bytes + size_bytes }

/-- Lookup (merkle_dag.py `MerkleDAG.get_node`). -/
def MerkleDAG.get_node (dag : MerkleDAG) (cache_key : List Nat) : Option MerkleNode :=
  dictGet dag.nodes cache_key

/-- One step of the child-removal loop inside `remove_node`: look the child
up again, skip it when absent or pinned, otherwise recursively remove it
(`f` is the recursive entry point at the remaining fuel). -/
def childStep (f : MerkleDAG → List Nat → Except DagError MerkleDAG)
    (acc : Except DagError MerkleDAG) (c : List Nat) : Except DagError MerkleDAG :=
  match acc with
  | .error e => .error e
  | .ok d =>
    match dictGet d.nodes c with
    | none => .ok d
    | some cn => if cn.refcount = 0 then f d c else .ok d

/-- Detach phase of `remove_node`: drop the node's key from its parent's
child list when the parent key is truthy (Python: non-empty bytes) and
present, otherwise drop it from the root list (guarded by an `in` test). -/
def detachStep (dag : MerkleDAG) (node : MerkleNode) (k : List Nat) : MerkleDAG :=
  match node.parent_key with
  | some p =>
    if p = [] then { dag with root_keys := removeFirst dag.root_keys k }
    else
      match dictGet dag.nodes p with
      | some pn =>
        let pn' := { pn with children_keys := removeFirst pn.children_keys k }
        { dag with nodes := dictSet dag.nodes p pn' }
      | none => { dag with root_keys := removeFirst dag.root_keys k }
  | none => { dag with root_keys := removeFirst dag.root_keys k }

/-- Child list iterated by the removal loop: Python copies
`node.children_keys[:]` after the detach, and when the node is its own
parent the detach has already mutated that very list, so the copy is read
back from the detached state. -/
def childrenAfterDetach (dag1 : MerkleDAG) (k : List Nat) : List (List Nat) :=
  match dictGet dag1.nodes k with
  | some n' => n'.children_keys
  | none => []

/-- Remove a node (merkle_dag.py `MerkleDAG.remove_node`), with fuel bounding
the recursion depth.  Mirrors the source order: silent return when absent,
`Pinned` when `refcount > 0`, detach from the parent's child list when the
parent key is truthy (non-empty) and present — otherwise remove from the
root list — then recursively remove unpinned children (iterating a copy of
the child list taken after the detach, re-reading each child from the dict),
and finally decrement the counter by the original node's size and delete the
dict entry. -/
def removeNodeFuel : Nat → MerkleDAG → List Nat → Except DagError MerkleDAG
  | 0, _, _ => .error .recursionLimit
  | fuel + 1, dag, k =>
    match dictGet dag.nodes k with
    | none => .ok dag
    | some node =>
      if node.refcount > 0 then .error (.pinned k)
      else
        let dag1 := detachStep dag node k
        match (childrenAfterDetach dag1 k).foldl
            (childStep (removeNodeFuel fuel)) (.ok dag1) with
        | .error e => .error e
        | .ok dag2 =>
          match dictGet dag2.nodes k with
          | none => .error .keyError
          | some _ =>
            .ok { dag2 with
                  nodes := dictDel dag2.nodes k,
                  total_size_bytes := dag2.total_size_bytes - node.size_bytes }

/-- Public removal entry point; the fuel `nodes.length + 1` is shown below to
suffice on every state whose child links are acyclic. -/
def MerkleDAG.remove_node (dag : MerkleDAG) (cache_key : List Nat) :
    Except DagError MerkleDAG :=
  removeNodeFuel (dag.nodes.length + 1) dag cache_key

/-- Counter getter (merkle_dag.py `MerkleDAG.get_total_size_bytes`). -/
def MerkleDAG.get_total_size_bytes (dag : MerkleDAG) : Int :=
  dag.total_size_bytes

/-- LRU candidates (merkle_dag.py `MerkleDAG.get_lru_nodes`): unpinned nodes
sorted by ascending access time.  Python's `list.sort` is stable, and so is
`List.insertionSort`, which therefore computes the same list. -/
def MerkleDAG.get_lru_nodes (dag : MerkleDAG) (limit : Nat) : List MerkleNode :=
  (((dag.nodes.map Prod.snd).filter (fun n => n.refcount = 0)).insertionSort
      (fun a b => a.access_timestamp ≤ b.access_timestamp)).take limit

/-- Errors surfaced by cache_manager.py. -/
inductive CMError
  | segmentTooLarge : CMError
  | dagError : DagError → CMError
deriving DecidableEq, Repr

/-- State of a `CacheManager`: the cache directory (one file per key, raw
bytes `[32-byte tag][payload]`) and the merkle DAG. -/
structure CMState where
  files : List (List Nat × List Nat)
  dag : MerkleDAG
deriving DecidableEq, Repr

/-- Fresh manager state: empty directory, empty DAG. -/
def CMState.empty : CMState := ⟨[], MerkleDAG.empty⟩

/-- Eviction loop of `CacheManager._enforce_cache_limit`: walk the LRU
snapshot, stop once enough bytes are evicted, skip pinned entries, otherwise
unlink the file, count the node's size and remove it from the DAG.  A
removal failure propagates as the exception would, after the unlink. -/
def evictLoop : CMState → List MerkleNode → Int → Int → CMState × Option CMError
  | st, [], _, _ => (st, none)
  | st, nd :: rest, toEvict, acc =>
    if acc ≥ toEvict then (st, none)
    else if nd.refcount > 0 then evictLoop st rest toEvict acc
    else
      let files' := dictDel st.files nd.cache_key
      match st.dag.remove_node nd.cache_key with
      | .ok d => evictLoop ⟨files', d⟩ rest toEvict (acc + nd.size_bytes)
      | .error e => (⟨files', st.dag⟩, some (.dagError e))

/-- Budget enforcement (cache_manager.py `CacheManager._enforce_cache_limit`)
with the byte budget as a parameter (the source reads the module constant
`MAX_TOTAL_CACHE_GB * 1024**3`).  Nothing happens while the current total is
at or below the budget; otherwise up to 1000 LRU candidates are walked. -/
def enforce_cache_limit (maxBytes : Int) (st : CMState) : CMState × Option CMError :=
  let current := st.dag.get_total_size_bytes
  if current ≤ maxBytes then (st, none)
  else evictLoop st (st.dag.get_lru_nodes 1000) (current - maxBytes) 0

/-- Write path (cache_manager.py `CacheManager.write_cache`): segment-size
check, budget enforcement, then the file write `[tag][data]` followed by
`add_node` with `size_bytes = len(data) + 32`.  An `add_node` failure leaves
the already-written file behind (only `OSError` triggers the rollback). -/
def write_cache (mac : List Nat → List Nat) (maxBytes : Int) (st : CMState)
    (cache_key : List Nat) (data : List Nat) (parent_key : Option (List Nat))
    (now : Nat) : CMState × Option CMError :=
  if data.length > MAX_SEGMENT_BYTES then (st, some .segmentTooLarge)
  else
    match enforce_cache_limit maxBytes st with
    | (st1, some e) => (st1, some e)
    | (st1, none) =>
      let tag := mac data
      let files' := dictSet st1.files cache_key (tag ++ data)
      match st1.dag.add_node cache_key parent_key (data.length + 32) now with
      | .ok d => (⟨files', d⟩, none)
      | .error e => (⟨files', st1.dag⟩, some (.dagError e))

/-- Outcome of `CacheManager.read_cache`.  The source returns `None` for the
three miss cases; the model labels which branch produced the miss.  `view`
carries the bytes of the memory map, which covers the whole file
(`mmap(fd, length=0)` maps from offset 0), and `raised` marks the corrupt
path on which the node removal threw out of the handler. -/
inductive ReadResult
  | view : List Nat → ReadResult
  | notFound : ReadResult
  | noIndexNode : ReadResult
  | corruptionDetected : ReadResult
  | raised : DagError → ReadResult
deriving DecidableEq, Repr

/-- Read path (cache_manager.py `CacheManager.read_cache`): miss when the
file is absent, miss when the index node is absent (file left in place),
then tag verification over the payload (`read(32)` then
`read(min(MAX_SEGMENT_MB * 1024**2, size - 32))`); on mismatch the file is
unlinked and the node removed before reporting the miss; on success the
whole file is mapped and the node's access time is refreshed. -/
def read_cache (mac : List Nat → List Nat) (st : CMState) (cache_key : List Nat)
    (now : Nat) : CMState × ReadResult :=
  match dictGet st.files cache_key with
  | none => (st, .notFound)
  | some contents =>
    match dictGet st.dag.nodes cache_key with
    | none => (st, .noIndexNode)
    | some node =>
      let stored := contents.take 32
      let maxRead := min MAX_SEGMENT_BYTES (contents.length - 32)
      let data := (contents.drop 32).take maxRead
      if mac data ≠ stored then
        let files' := dictDel st.files cache_key
        match st.dag.remove_node cache_key with
        | .ok d => (⟨files', d⟩, .corruptionDetected)
        | .error e => (⟨files', st.dag⟩, .raised e)
      else
        let node' := { node with access_timestamp := now }
        (⟨st.files, { st.dag with nodes := dictSet st.dag.nodes cache_key node' }⟩,
          .view contents)

/-- Errors raised by `CCFZKCSHandler.get_cache_key`: the typed length
rejection, and the `ValueError` that `bytes(sorted(tokens))` raises when a
token is outside the byte range. -/
inductive FingerprintError
  | inputTooLarge : FingerprintError
  | byteOutOfRange : FingerprintError
deriving DecidableEq, Repr

/-- Fingerprint (handler.py `CCFZKCSHandler.get_cache_key`): length check,
then `bytes(sorted(tokens))` — which requires every token to be a byte
value — hashed with blake3 (abstract `b3`).  Tokens are the unsigned
integers of the claims; `List.insertionSort` computes Python's `sorted`. -/
def get_cache_key (b3 : List Nat → List Nat) (tokens : List Nat) :
    Except FingerprintError (List Nat) :=
  if tokens.length > MAX_TOKENS_PER_REQUEST then .error .inputTooLarge
  else
    let s := tokens.insertionSort (· ≤ ·)
    if s.all (fun t => t < 256) then .ok (b3 s)
    else .error .byteOutOfRange

/-- Stand-in digest used for concrete witnesses: constant 32-byte output. -/
def macStub : List Nat → List Nat := fun _ => List.replicate 32 0

/-- Operations on the lineage index, for stating sequence invariants. -/
inductive DagOp
  | add : List Nat → Option (List Nat) → Nat → Nat → DagOp
  | remove : List Nat → DagOp
deriving DecidableEq, Repr

/-- Run one operation; a raising operation leaves the state unchanged (every
reachable raise in the source fires before any mutation). -/
def runOp (dag : MerkleDAG) : DagOp → MerkleDAG
  | .add k p s t =>
    match dag.add_node k p s t with
    | .ok d => d
    | .error _ => dag
  | .remove k =>
    match dag.remove_node k with
    | .ok d => d
    | .error _ => dag

/-- Run a sequence of operations. -/
def runOps (dag : MerkleDAG) (ops : List DagOp) : MerkleDAG :=
  ops.foldl runOp dag

/-- Keys currently stored in the index. -/
def keysOf (dag : MerkleDAG) : List (List Nat) :=
  dag.nodes.map Prod.fst

/-- Sum of `size_bytes` over the bindings of a node dict. -/
def sizesum (l : List (List Nat × MerkleNode)) : Int :=
  (l.map (fun e => (e.2.size_bytes : Int))).sum

/-- Sum of `size_bytes` over the nodes currently present. -/
def sumSizes (dag : MerkleDAG) : Int :=
  sizesum dag.nodes

/-- Keys of the index are pairwise distinct; `MerkleDAG.nodes` models a
Python dict, so every state the API builds satisfies this. -/
def NodupKeys (dag : MerkleDAG) : Prop :=
  (keysOf dag).Nodup

/-- Child links are acyclic, witnessed by a rank that strictly increases
from parent to child.  Every state built through `add_node` satisfies this
(children recorded under a key always point to nodes stored later), and it
is exactly what makes the Python recursion in `remove_node` terminate. -/
def RankedWF (dag : MerkleDAG) (r : List Nat → Nat) : Prop :=
  ∀ k n, dictGet dag.nodes k = some n → ∀ c ∈ n.children_keys, r k < r c

/-- Every stored node records its own key in `cache_key`; `add_node` always
stores nodes this way. -/
def KeyMatch (dag : MerkleDAG) : Prop :=
  ∀ k n, dictGet dag.nodes k = some n → n.cache_key = k

/-- The second state refines the first by deleting whole entries and
shrinking child lists: everything `remove_node` and eviction do.  All other
node fields are untouched. -/
def Erode (d dag : MerkleDAG) : Prop :=
  ∀ k n, dictGet d.nodes k = some n → ∃ n₀, dictGet dag.nodes k = some n₀ ∧
    n.cache_key = n₀.cache_key ∧ n.parent_key = n₀.parent_key ∧
    n.refcount = n₀.refcount ∧ n.size_bytes = n₀.size_bytes ∧
    n.children_keys ⊆ n₀.children_keys

/-- Number of stored keys whose rank is at least `v`; the termination
measure for the removal recursion. -/
def countGe (dag : MerkleDAG) (r : List Nat → Nat) (v : Nat) : Nat :=
  ((keysOf dag).filter (fun k => decide (v ≤ r k))).length

/-- The tracked total equals the sum of the stored sizes, over a dict with
distinct keys: the invariant of claim C5. -/
def InvSum (dag : MerkleDAG) : Prop :=
  NodupKeys dag ∧ sumSizes dag = dag.total_size_bytes

/-- An operation sequence whose insertions always use a key not currently
present (no silent overwrite). -/
def FreshOps : MerkleDAG → List DagOp → Prop
  | _, [] => True
  | dag, op :: rest =>
    (match op with
     | .add k _ _ _ => dictGet dag.nodes k = none
     | .remove _ => True) ∧ FreshOps (runOp dag op) rest

/-- Concrete DAG whose single root already has `MAX_FANOUT` children. -/
def fullParentDag : MerkleDAG :=
  ⟨[([0], ⟨[0], none, (List.range MAX_FANOUT).map (fun i => [i + 1]), 0, 0, 0⟩)],
    [[0]], 0⟩

/-- Concrete node pinned by one reference. -/
def pinnedNode : MerkleNode := ⟨[1], none, [], 1, 40, 3⟩

/-- Concrete DAG holding only `pinnedNode`. -/
def pinnedDag : MerkleDAG := ⟨[([1], pinnedNode)], [[1]], 40⟩

/-- Concrete cache state: the file under key `[1]` is 32 bytes of ones, so
its tag does not match `macStub` of its (empty) payload, and the index node
for it is pinned. -/
def pinnedCorruptState : CMState := ⟨[([1], List.replicate 32 1)], pinnedDag⟩

/-- Same corrupt file, but with the index node unpinned. -/
def unpinnedCorruptState : CMState :=
  ⟨[([1], List.replicate 32 1)], ⟨[([1], ⟨[1], none, [], 0, 40, 3⟩)], [[1]], 40⟩⟩

/-- One write of scenario B (claim C4): a 400-byte payload against a
1000-byte budget. -/
def scenarioBWrite (st : CMState) (k : List Nat) (t : Nat) : CMState :=
  (write_cache macStub 1000 st k (List.replicate 400 0) none t).1

/-- State after the three writes of scenario B. -/
def scenarioBAfter3 : CMState :=
  scenarioBWrite (scenarioBWrite (scenarioBWrite CMState.empty [1] 1) [2] 2) [3] 3

/-- State after a fourth write in scenario B. -/
def scenarioBAfter4 : CMState := scenarioBWrite scenarioBAfter3 [4] 4

/-- State after one write of key `[7]`, payload `[9, 9]`, used for the C1
round-trip counterexample. -/
def roundTripState : CMState :=
  (write_cache macStub 1000000 CMState.empty [7] [9, 9] none 1).1

/-! ### Association-list lemmas -/

theorem dictGet_dictSet_self {V : Type} (l : List (List Nat × V)) (k : List Nat) (v : V) :
    dictGet (dictSet l k v) k = some v := by
  induction l with
  | nil => simp [dictSet, dictGet]
  | cons e rest ih =>
    by_cases h : e.1 = k
    · simp [dictSet, dictGet, h]
    · simp [dictSet, dictGet, h, ih]

theorem dictGet_dictSet_ne {V : Type} (l : List (List Nat × V)) {k k' : List Nat} (v : V)
    (h : k' ≠ k) : dictGet (dictSet l k v) k' = dictGet l k' := by
  have hkk : ¬ k = k' := fun he => h he.symm
  induction l with
  | nil => simp [dictSet, dictGet, hkk]
  | cons e rest ih =>
    by_cases he : e.1 = k
    · subst he
      simp [dictSet, dictGet, hkk]
    · simp [dictSet, dictGet, he, ih]

theorem dictGet_dictDel_self {V : Type} (l : List (List Nat × V)) (k : List Nat) :
    dictGet (dictDel l k) k = none := by
  induction l with
  | nil => simp [dictDel, dictGet]
  | cons e rest ih =>
    by_cases h : e.1 = k
    · simp [dictDel, h, ih]
    · simp [dictDel, dictGet, h, ih]

theorem dictGet_dictDel_ne {V : Type} (l : List (List Nat × V)) {k k' : List Nat}
    (h : k' ≠ k) : dictGet (dictDel l k) k' = dictGet l k' := by
  induction l with
  | nil => simp [dictDel]
  | cons e rest ih =>
    by_cases he : e.1 = k
    · subst he
      have : ¬ e.1 = k' := fun h' => h h'.symm
      simp [dictDel, dictGet, this, ih]
    · simp [dictDel, dictGet, he, ih]

theorem dictDel_sublist {V : Type} (l : List (List Nat × V)) (k : List Nat) :
    (dictDel l k).Sublist l := by
  induction l with
  | nil => simp [dictDel]
  | cons e rest ih =>
    by_cases h : e.1 = k
    · simp only [dictDel, if_pos h]
      exact ih.cons e
    · simp only [dictDel, if_neg h]
      exact ih.cons₂ e

theorem dictSet_of_get_none {V : Type} {l : List (List Nat × V)} {k : List Nat}
    (h : dictGet l k = none) (v : V) : dictSet l k v = l ++ [(k, v)] := by
  induction l with
  | nil => simp [dictSet]
  | cons e rest ih =>
    by_cases he : e.1 = k
    · simp [dictGet, he] at h
    · simp only [dictGet, if_neg he] at h
      simp [dictSet, he, ih h]

theorem dictDel_of_get_none {V : Type} {l : List (List Nat × V)} {k : List Nat}
    (h : dictGet l k = none) : dictDel l k = l := by
  induction l with
  | nil => simp [dictDel]
  | cons e rest ih =>
    by_cases he : e.1 = k
    · simp [dictGet, he] at h
    · simp only [dictGet, if_neg he] at h
      simp [dictDel, he, ih h]

theorem keys_dictSet_of_get_some {V : Type} {l : List (List Nat × V)} {k : List Nat}
    {w : V} (h : dictGet l k = some w) (v : V) :
    (dictSet l k v).map Prod.fst = l.map Prod.fst := by
  induction l with
  | nil => simp [dictGet] at h
  | cons e rest ih =>
    by_cases he : e.1 = k
    · simp [dictSet, he]
    · simp only [dictGet, if_neg he] at h
      simp [dictSet, he, ih h]

theorem dictGet_none_iff_not_mem {V : Type} (l : List (List Nat × V)) (k : List Nat) :
    dictGet l k = none ↔ k ∉ l.map Prod.fst := by
  induction l with
  | nil => simp [dictGet]
  | cons e rest ih =>
    by_cases he : e.1 = k
    · simp [dictGet, he]
    · have hne : ¬ k = e.1 := fun h => he h.symm
      simp [dictGet, he, ih, hne]

theorem dictGet_isSome_iff_mem {V : Type} (l : List (List Nat × V)) (k : List Nat) :
    (dictGet l k).isSome ↔ k ∈ l.map Prod.fst := by
  constructor
  · intro h
    by_contra hm
    rw [(dictGet_none_iff_not_mem l k).mpr hm] at h
    simp at h
  · intro hm
    rcases hget : dictGet l k with _ | v
    · exact absurd ((dictGet_none_iff_not_mem l k).mp hget) (not_not_intro hm)
    · simp

theorem dictGet_of_mem_nodup {V : Type} {l : List (List Nat × V)} {k : List Nat} {v : V}
    (hd : (l.map Prod.fst).Nodup) (hm : (k, v) ∈ l) : dictGet l k = some v := by
  induction l with
  | nil => simp at hm
  | cons e rest ih =>
    rw [List.map_cons, List.nodup_cons] at hd
    rcases List.mem_cons.mp hm with h | h
    · rw [← h]
      simp [dictGet]
    · have he : ¬ e.1 = k := by
        intro hek
        refine hd.1 ?_
        rw [hek]
        exact List.mem_map_of_mem Prod.fst h
      simp [dictGet, he, ih hd.2 h]

theorem removeFirst_subset (xs : List (List Nat)) (k : List Nat) :
    removeFirst xs k ⊆ xs := by
  induction xs with
  | nil => simp [removeFirst]
  | cons x rest ih =>
    by_cases h : x = k
    · simp only [removeFirst, if_pos h]
      exact List.subset_cons_self x rest
    · simp only [removeFirst, if_neg h]
      exact List.cons_subset_cons x ih

/-! ### Size-sum lemmas -/

theorem sizesum_cons (e : List Nat × MerkleNode) (l : List (List Nat × MerkleNode)) :
    sizesum (e :: l) = (e.2.size_bytes : Int) + sizesum l := by
  simp [sizesum]

theorem sizesum_dictSet_same {l : List (List Nat × MerkleNode)} {k : List Nat}
    {n n' : MerkleNode} (hget : dictGet l k = some n)
    (hsz : n'.size_bytes = n.size_bytes) :
    sizesum (dictSet l k n') = sizesum l := by
  induction l with
  | nil => simp [dictGet] at hget
  | cons e rest ih =>
    by_cases he : e.1 = k
    · simp only [dictGet, if_pos he] at hget
      cases hget
      simp [dictSet, he, sizesum_cons, hsz]
    · simp only [dictGet, if_neg he] at hget
      simp [dictSet, he, sizesum_cons, ih hget]

theorem sizesum_dictSet_new {l : List (List Nat × MerkleNode)} {k : List Nat}
    (hget : dictGet l k = none) (n : MerkleNode) :
    sizesum (dictSet l k n) = sizesum l + n.size_bytes := by
  rw [dictSet_of_get_none hget]
  simp [sizesum]

theorem sizesum_dictDel {l : List (List Nat × MerkleNode)} {k : List Nat}
    {n : MerkleNode} (hd : (l.map Prod.fst).Nodup) (hget : dictGet l k = some n) :
    sizesum (dictDel l k) = sizesum l - n.size_bytes := by
  induction l with
  | nil => simp [dictGet] at hget
  | cons e rest ih =>
    rw [List.map_cons, List.nodup_cons] at hd
    by_cases he : e.1 = k
    · simp only [dictGet, if_pos he] at hget
      cases hget
      have hrest : dictGet rest k = none := by
        rw [dictGet_none_iff_not_mem]
        intro hmem
        exact hd.1 (he ▸ hmem)
      rw [dictDel_of_get_none (k := k) hrest] at *
      simp only [dictDel, if_pos he]
      rw [dictDel_of_get_none (k := k) hrest]
      rw [sizesum_cons]
      ring
    · simp only [dictGet, if_neg he] at hget
      simp only [dictDel, if_neg he]
      rw [sizesum_cons, sizesum_cons, ih hd.2 hget]
      ring

/-! ### Filter-counting lemmas -/

theorem filter_length_mono {α : Type} {l : List α} {p q : α → Bool}
    (h : ∀ x ∈ l, p x = true → q x = true) :
    (l.filter p).length ≤ (l.filter q).length := by
  induction l with
  | nil => simp
  | cons x rest ih =>
    have hrest := ih (fun y hy => h y (List.mem_cons_of_mem x hy))
    by_cases hp : p x = true
    · have hq := h x (List.mem_cons_self x rest) hp
      simp [List.filter_cons, hp, hq]
      omega
    · rcases hq : q x with _ | _
      · simpa [List.filter_cons, hp, hq] using hrest
      · simp only [List.filter_cons, hq, if_pos rfl]
        simp only [Bool.not_eq_true] at hp
        simp [hp]
        omega

theorem filter_length_lt {α : Type} {l : List α} {p q : α → Bool}
    (himp : ∀ x ∈ l, p x = true → q x = true)
    {a : α} (ha : a ∈ l) (hqa : q a = true) (hpa : p a = false) :
    (l.filter p).length < (l.filter q).length := by
  induction l with
  | nil => simp at ha
  | cons x rest ih =>
    have hmono : (rest.filter p).length ≤ (rest.filter q).length :=
      filter_length_mono (fun y hy => himp y (List.mem_cons_of_mem x hy))
    rcases List.mem_cons.mp ha with hax | hax
    · subst hax
      simp [List.filter_cons, hqa, hpa]
      omega
    · have hrec := ih (fun y hy => himp y (List.mem_cons_of_mem x hy)) hax
      by_cases hp : p x = true
      · have hq := himp x (List.mem_cons_self x rest) hp
        simp [List.filter_cons, hp, hq]
        omega
      · rcases hq : q x with _ | _
        · simpa [List.filter_cons, hp, hq] using hrec
        · simp only [List.filter_cons, hq, if_pos rfl]
          simp only [Bool.not_eq_true] at hp
          simp [hp]
          omega

/-! ### Erosion lemmas -/

theorem Erode.refl (dag : MerkleDAG) : Erode dag dag := by
  intro k n h
  exact ⟨n, h, rfl, rfl, rfl, rfl, List.Subset.refl _⟩

theorem Erode.trans {d1 d2 d3 : MerkleDAG} (h12 : Erode d1 d2) (h23 : Erode d2 d3) :
    Erode d1 d3 := by
  intro k n h
  obtain ⟨m, hm, e1, e2, e3, e4, e5⟩ := h12 k n h
  obtain ⟨m', hm', f1, f2, f3, f4, f5⟩ := h23 k m hm
  exact ⟨m', hm', e1.trans f1, e2.trans f2, e3.trans f3, e4.trans f4, e5.trans f5⟩

theorem Erode.rankedWF {d dag : MerkleDAG} {r : List Nat → Nat}
    (he : Erode d dag) (hr : RankedWF dag r) : RankedWF d r := by
  intro k n hget c hc
  obtain ⟨n₀, hn₀, _, _, _, _, hsub⟩ := he k n hget
  exact hr k n₀ hn₀ c (hsub hc)

theorem Erode.keys_subset {d dag : MerkleDAG} (he : Erode d dag) :
    keysOf d ⊆ keysOf dag := by
  intro k hk
  simp only [keysOf, ← dictGet_isSome_iff_mem] at hk ⊢
  rcases hget : dictGet d.nodes k with _ | n
  · rw [hget] at hk
    simp at hk
  · obtain ⟨n₀, hn₀, _⟩ := he k n hget
    rw [hn₀]
    simp

theorem Erode.countGe_le {d dag : MerkleDAG} {r : List Nat → Nat}
    (he : Erode d dag) (hd : NodupKeys d) (v : Nat) :
    countGe d r v ≤ countGe dag r v := by
  have hsub : keysOf d ⊆ keysOf dag := he.keys_subset
  have hsp : (keysOf d).Subperm (keysOf dag) := List.subperm_of_subset hd hsub
  exact (hsp.filter _).length_le

theorem countGe_lt_fuelBound (dag : MerkleDAG) (r : List Nat → Nat) (v : Nat) :
    countGe dag r v < dag.nodes.length + 1 := by
  have h1 : countGe dag r v ≤ (keysOf dag).length := List.length_filter_le _ _
  have h2 : (keysOf dag).length = dag.nodes.length := List.length_map _ _
  omega

/-- Deleting a present key erodes the state. -/
theorem erode_dictDel (dag : MerkleDAG) (k : List Nat) (t : Int) :
    Erode ⟨dictDel dag.nodes k, dag.root_keys, t⟩ dag := by
  intro k' n hget
  have hget' : dictGet (dictDel dag.nodes k) k' = some n := hget
  by_cases hk : k' = k
  · rw [hk, dictGet_dictDel_self] at hget'
    cases hget'
  · rw [dictGet_dictDel_ne _ hk] at hget'
    exact ⟨n, hget', rfl, rfl, rfl, rfl, List.Subset.refl _⟩

/-- Nodup keys survive a binding deletion. -/
theorem nodup_dictDel {V : Type} {l : List (List Nat × V)} (k : List Nat)
    (hd : (l.map Prod.fst).Nodup) : ((dictDel l k).map Prod.fst).Nodup :=
  ((dictDel_sublist l k).map Prod.fst).nodup hd

/-! ### The child-removal fold -/

theorem foldl_childStep_error (f : MerkleDAG → List Nat → Except DagError MerkleDAG)
    (cs : List (List Nat)) (e : DagError) :
    cs.foldl (childStep f) (.error e) = .error e := by
  induction cs with
  | nil => rfl
  | cons c rest ih => simpa [childStep] using ih

/-! ### Detach-step lemmas -/

theorem detachStep_keys (dag : MerkleDAG) (node : MerkleNode) (k : List Nat) :
    keysOf (detachStep dag node k) = keysOf dag := by
  rcases hpk : node.parent_key with _ | p
  · simp [detachStep, hpk, keysOf]
  · by_cases hp : p = []
    · simp [detachStep, hpk, hp, keysOf]
    · rcases hpp : dictGet dag.nodes p with _ | pn
      · simp [detachStep, hpk, hp, hpp, keysOf]
      · simp only [detachStep, hpk, hp, hpp, keysOf, if_neg hp]
        exact keys_dictSet_of_get_some hpp _

theorem detachStep_total (dag : MerkleDAG) (node : MerkleNode) (k : List Nat) :
    (detachStep dag node k).total_size_bytes = dag.total_size_bytes := by
  rcases hpk : node.parent_key with _ | p
  · simp [detachStep, hpk]
  · by_cases hp : p = []
    · simp [detachStep, hpk, hp]
    · rcases hpp : dictGet dag.nodes p with _ | pn
      · simp [detachStep, hpk, hp, hpp]
      · simp [detachStep, hpk, hp, hpp]

theorem detachStep_sizesum (dag : MerkleDAG) (node : MerkleNode) (k : List Nat) :
    sizesum (detachStep dag node k).nodes = sizesum dag.nodes := by
  rcases hpk : node.parent_key with _ | p
  · simp [detachStep, hpk]
  · by_cases hp : p = []
    · simp [detachStep, hpk, hp]
    · rcases hpp : dictGet dag.nodes p with _ | pn
      · simp [detachStep, hpk, hp, hpp]
      · simp only [detachStep, hpk, hp, hpp, if_neg hp]
        exact sizesum_dictSet_same hpp rfl

theorem erode_dictSet_shrink {dag : MerkleDAG} {p : List Nat} {pn : MerkleNode}
    (pn' : MerkleNode) (hpp : dictGet dag.nodes p = some pn)
    (hck : pn'.cache_key = pn.cache_key) (hpk : pn'.parent_key = pn.parent_key)
    (hrc : pn'.refcount = pn.refcount) (hsz : pn'.size_bytes = pn.size_bytes)
    (hch : pn'.children_keys ⊆ pn.children_keys) (rk : List (List Nat)) (t : Int) :
    Erode ⟨dictSet dag.nodes p pn', rk, t⟩ dag := by
  intro k' n h
  have h' : dictGet (dictSet dag.nodes p pn') k' = some n := h
  by_cases hk' : k' = p
  · rw [hk', dictGet_dictSet_self] at h'
    cases h'
    exact ⟨pn, hk' ▸ hpp, hck, hpk, hrc, hsz, hch⟩
  · rw [dictGet_dictSet_ne _ _ hk'] at h'
    exact ⟨n, h', rfl, rfl, rfl, rfl, List.Subset.refl _⟩

theorem detachStep_erode (dag : MerkleDAG) (node : MerkleNode) (k : List Nat) :
    Erode (detachStep dag node k) dag := by
  have hroot : ∀ rk, Erode { dag with root_keys := rk } dag := by
    intro rk k' n h
    exact ⟨n, h, rfl, rfl, rfl, rfl, List.Subset.refl _⟩
  rcases hpk : node.parent_key with _ | p
  · simpa [detachStep, hpk] using hroot _
  · by_cases hp : p = []
    · simpa [detachStep, hpk, hp] using hroot _
    · rcases hpp : dictGet dag.nodes p with _ | pn
      · simpa [detachStep, hpk, hp, hpp] using hroot _
      · simp only [detachStep, hpk, hpp, if_neg hp]
        exact erode_dictSet_shrink
          { pn with children_keys := removeFirst pn.children_keys k }
          hpp rfl rfl rfl rfl (removeFirst_subset _ _) _ _

theorem get_of_erode_keys {d dag : MerkleDAG} (he : Erode d dag)
    (hkeys : keysOf d = keysOf dag) {k : List Nat} {node : MerkleNode}
    (hget : dictGet dag.nodes k = some node) :
    ∃ nk, dictGet d.nodes k = some nk ∧ nk.cache_key = node.cache_key ∧
      nk.parent_key = node.parent_key ∧ nk.refcount = node.refcount ∧
      nk.size_bytes = node.size_bytes ∧ nk.children_keys ⊆ node.children_keys := by
  have hk : k ∈ keysOf d := by
    rw [hkeys]
    simp only [keysOf, ← dictGet_isSome_iff_mem, hget, Option.isSome_some]
  rw [show keysOf d = d.nodes.map Prod.fst from rfl, ← dictGet_isSome_iff_mem] at hk
  rcases hdk : dictGet d.nodes k with _ | nk
  · rw [hdk] at hk
    simp at hk
  · obtain ⟨n₀, hn₀, e1, e2, e3, e4, e5⟩ := he k nk hdk
    rw [hget] at hn₀
    cases hn₀
    exact ⟨nk, rfl, e1, e2, e3, e4, e5⟩

/-! ### Counter-invariant preservation through removal -/

theorem foldl_childStep_preserve
    {f : MerkleDAG → List Nat → Except DagError MerkleDAG}
    (hf : ∀ {dag : MerkleDAG} {k : List Nat} {d : MerkleDAG},
      f dag k = .ok d → InvSum dag → InvSum d ∧ Erode d dag) :
    ∀ (cs : List (List Nat)) {dag d : MerkleDAG},
      cs.foldl (childStep f) (.ok dag) = .ok d → InvSum dag → InvSum d ∧ Erode d dag := by
  intro cs
  induction cs with
  | nil =>
    intro dag d h hinv
    cases h
    exact ⟨hinv, Erode.refl dag⟩
  | cons c rest ih =>
    intro dag d h hinv
    rw [List.foldl_cons] at h
    rcases hcg : dictGet dag.nodes c with _ | cn
    · rw [show childStep f (.ok dag) c = .ok dag by simp [childStep, hcg]] at h
      exact ih h hinv
    · by_cases hrc : cn.refcount = 0
      · rw [show childStep f (.ok dag) c = f dag c by simp [childStep, hcg, hrc]] at h
        rcases hfc : f dag c with e | d1
        · rw [hfc, foldl_childStep_error] at h
          cases h
        · rw [hfc] at h
          obtain ⟨hinv1, her1⟩ := hf hfc hinv
          obtain ⟨hinvd, herd⟩ := ih h hinv1
          exact ⟨hinvd, herd.trans her1⟩
      · rw [show childStep f (.ok dag) c = .ok dag by simp [childStep, hcg, hrc]] at h
        exact ih h hinv

theorem removeFuel_preserve :
    ∀ (fuel : Nat) {dag : MerkleDAG} {k : List Nat} {d : MerkleDAG},
      removeNodeFuel fuel dag k = .ok d → InvSum dag → InvSum d ∧ Erode d dag := by
  intro fuel
  induction fuel with
  | zero =>
    intro dag k d h
    simp [removeNodeFuel] at h
  | succ fuel ih =>
    intro dag k d h hinv
    rw [removeNodeFuel] at h
    rcases hget : dictGet dag.nodes k with _ | node
    · rw [hget] at h
      cases h
      exact ⟨hinv, Erode.refl _⟩
    · rw [hget] at h
      by_cases hrc : node.refcount > 0
      · simp only [if_pos hrc] at h
        cases h
      · simp only [if_neg hrc] at h
        have hinv1 : InvSum (detachStep dag node k) := by
          refine ⟨?_, ?_⟩
          · have := detachStep_keys dag node k
            unfold NodupKeys
            rw [this]
            exact hinv.1
          · show sumSizes _ = _
            unfold sumSizes
            rw [detachStep_sizesum, detachStep_total]
            exact hinv.2
        rcases hfold : (childrenAfterDetach (detachStep dag node k) k).foldl
            (childStep (removeNodeFuel fuel)) (.ok (detachStep dag node k)) with e | dag2
        · rw [hfold] at h
          cases h
        · rw [hfold] at h
          dsimp only at h
          obtain ⟨hinv2, her2⟩ :=
            foldl_childStep_preserve (fun ha hb => ih ha hb) _ hfold hinv1
          rcases hdel : dictGet dag2.nodes k with _ | n2
          · rw [hdel] at h
            cases h
          · rw [hdel] at h
            cases h
            have hkeq : keysOf (detachStep dag node k) = keysOf dag :=
              detachStep_keys dag node k
            obtain ⟨nk, hnk, _, _, _, hsz1, _⟩ :=
              get_of_erode_keys (detachStep_erode dag node k) hkeq hget
            obtain ⟨n0, hn0, _, _, _, hsz2, _⟩ := her2 k n2 hdel
            rw [hnk] at hn0
            cases hn0
            have hszeq : n2.size_bytes = node.size_bytes := hsz2.trans hsz1
            constructor
            · refine ⟨?_, ?_⟩
              · exact nodup_dictDel k hinv2.1
              · show sizesum _ = _
                rw [sizesum_dictDel hinv2.1 hdel]
                have := hinv2.2
                unfold sumSizes at this
                rw [this, hszeq]
            · exact (erode_dictDel dag2 k _).trans
                (her2.trans (detachStep_erode dag node k))

/-! ### Counter-invariant preservation through insertion -/

theorem add_node_preserve_fresh {dag : MerkleDAG} {k : List Nat}
    {p : Option (List Nat)} {s t : Nat} {d : MerkleDAG}
    (hfresh : dictGet dag.nodes k = none)
    (h : dag.add_node k p s t = .ok d) (hinv : InvSum dag) : InvSum d := by
  rcases p with _ | q
  · rw [MerkleDAG.add_node] at h
    cases h
    constructor
    · unfold NodupKeys keysOf
      rw [show (⟨dictSet dag.nodes k ⟨k, none, [], 0, s, t⟩, dag.root_keys ++ [k],
            dag.total_size_bytes + s⟩ : MerkleDAG).nodes
          = dictSet dag.nodes k ⟨k, none, [], 0, s, t⟩ from rfl]
      rw [dictSet_of_get_none hfresh]
      rw [List.map_append]
      refine List.Nodup.append hinv.1 (by simp) ?_
      intro a ha hb
      simp only [List.map_cons, List.map_nil, List.mem_singleton] at hb
      subst hb
      exact (dictGet_none_iff_not_mem _ _).mp hfresh ha
    · show sizesum _ = _
      rw [show (⟨dictSet dag.nodes k ⟨k, none, [], 0, s, t⟩, dag.root_keys ++ [k],
            dag.total_size_bytes + s⟩ : MerkleDAG).nodes
          = dictSet dag.nodes k ⟨k, none, [], 0, s, t⟩ from rfl]
      rw [sizesum_dictSet_new hfresh]
      have := hinv.2
      unfold sumSizes at this
      rw [this]
  · rw [MerkleDAG.add_node] at h
    rcases hq : dictGet dag.nodes q with _ | pn
    · rw [hq] at h
      cases h
    · rw [hq] at h
      dsimp only at h
      by_cases hfan : pn.children_keys.length ≥ MAX_FANOUT
      · rw [if_pos hfan] at h
        cases h
      · rw [if_neg hfan] at h
        have hqk : ¬ k = q := by
          intro hkq
          rw [hkq, hq] at hfresh
          cases hfresh
        set pn' := if k ∈ pn.children_keys then pn
          else { pn with children_keys := pn.children_keys ++ [k] } with hpn'
        have hsz : pn'.size_bytes = pn.size_bytes := by
          rw [hpn']
          by_cases hmem : k ∈ pn.children_keys
          · rw [if_pos hmem]
          · rw [if_neg hmem]
        cases h
        have hkeys1 : (dictSet dag.nodes q pn').map Prod.fst = dag.nodes.map Prod.fst :=
          keys_dictSet_of_get_some hq pn'
        have hfresh1 : dictGet (dictSet dag.nodes q pn') k = none := by
          rw [dictGet_dictSet_ne _ _ hqk]
          exact hfresh
        constructor
        · unfold NodupKeys keysOf
          rw [show (⟨dictSet (dictSet dag.nodes q pn') k ⟨k, some q, [], 0, s, t⟩,
                dag.root_keys, dag.total_size_bytes + s⟩ : MerkleDAG).nodes
              = dictSet (dictSet dag.nodes q pn') k ⟨k, some q, [], 0, s, t⟩ from rfl]
          rw [dictSet_of_get_none hfresh1, List.map_append, hkeys1]
          refine List.Nodup.append hinv.1 (by simp) ?_
          intro a ha hb
          simp only [List.map_cons, List.map_nil, List.mem_singleton] at hb
          subst hb
          exact (dictGet_none_iff_not_mem _ _).mp hfresh ha
        · show sizesum _ = _
          rw [show (⟨dictSet (dictSet dag.nodes q pn') k ⟨k, some q, [], 0, s, t⟩,
                dag.root_keys, dag.total_size_bytes + s⟩ : MerkleDAG).nodes
              = dictSet (dictSet dag.nodes q pn') k ⟨k, some q, [], 0, s, t⟩ from rfl]
          rw [sizesum_dictSet_new hfresh1, sizesum_dictSet_same hq hsz]
          have := hinv.2
          unfold sumSizes at this
          rw [this]

theorem runOps_invSum : ∀ (ops : List DagOp) (dag : MerkleDAG),
    InvSum dag → FreshOps dag ops → InvSum (runOps dag ops) := by
  intro ops
  induction ops with
  | nil =>
    intro dag hinv _
    exact hinv
  | cons op rest ih =>
    intro dag hinv hfresh
    rw [runOps, List.foldl_cons]
    have hstep : InvSum (runOp dag op) := by
      rcases op with ⟨k, p, sz, t⟩ | k
      · rw [runOp]
        rcases hadd : dag.add_node k p sz t with e | d
        · exact hinv
        · exact add_node_preserve_fresh hfresh.1 hadd hinv
      · rw [runOp]
        rcases hrem : dag.remove_node k with e | d
        · exact hinv
        · exact (removeFuel_preserve _ hrem hinv).1
    exact ih (runOp dag op) hstep hfresh.2

/-! ### Successful removal on acyclic states -/

theorem mem_keysOf_of_get {dag : MerkleDAG} {k : List Nat} {n : MerkleNode}
    (h : dictGet dag.nodes k = some n) : k ∈ keysOf dag := by
  simp only [keysOf, ← dictGet_isSome_iff_mem, h, Option.isSome_some]

theorem get_none_of_keys_eq {d dag : MerkleDAG} (hkeys : keysOf d = keysOf dag)
    {k : List Nat} (h : dictGet d.nodes k = none) : dictGet dag.nodes k = none := by
  have h1 : k ∉ keysOf d := (dictGet_none_iff_not_mem _ _).mp h
  have h2 : k ∉ keysOf dag := by
    rw [← hkeys]
    exact h1
  exact (dictGet_none_iff_not_mem _ _).mpr h2

theorem countGe_lt_of_edge {dag : MerkleDAG} {r : List Nat → Nat} {k c : List Nat}
    (hk : k ∈ keysOf dag) (hlt : r k < r c) :
    countGe dag r (r c) < countGe dag r (r k) := by
  refine filter_length_lt (fun x _ hx => ?_) hk ?_ ?_
  · simp only [decide_eq_true_eq] at hx ⊢
    omega
  · simp
  · simp only [decide_eq_false_iff_not]
    omega

theorem foldl_childStep_ok (fuel : Nat) (r : List Nat → Nat)
    (IH : ∀ (dag : MerkleDAG) (k : List Nat),
      NodupKeys dag → RankedWF dag r →
      (∀ n, dictGet dag.nodes k = some n → n.refcount = 0) →
      countGe dag r (r k) < fuel →
      ∃ d, removeNodeFuel fuel dag k = .ok d ∧ Erode d dag ∧ NodupKeys d ∧
        dictGet d.nodes k = none ∧
        (∀ k', dictGet d.nodes k' = none → dictGet dag.nodes k' = none ∨ r k ≤ r k')) :
    ∀ (cs : List (List Nat)) (dag : MerkleDAG),
      NodupKeys dag → RankedWF dag r →
      (∀ c ∈ cs, countGe dag r (r c) < fuel) →
      ∃ d, cs.foldl (childStep (removeNodeFuel fuel)) (.ok dag) = .ok d ∧
        Erode d dag ∧ NodupKeys d ∧
        (∀ k', dictGet d.nodes k' = none →
          dictGet dag.nodes k' = none ∨ ∃ c ∈ cs, r c ≤ r k') := by
  intro cs
  induction cs with
  | nil =>
    intro dag hnd hwf _
    exact ⟨dag, rfl, Erode.refl _, hnd, fun k' h => Or.inl h⟩
  | cons c rest ih =>
    intro dag hnd hwf hbounds
    rw [List.foldl_cons]
    rcases hcg : dictGet dag.nodes c with _ | cn
    · rw [show childStep (removeNodeFuel fuel) (.ok dag) c = .ok dag by
        simp [childStep, hcg]]
      obtain ⟨d, hfold, her, hndd, hdel⟩ :=
        ih dag hnd hwf (fun c' hc' => hbounds c' (List.mem_cons_of_mem c hc'))
      refine ⟨d, hfold, her, hndd, fun k' hk' => ?_⟩
      rcases hdel k' hk' with h | ⟨c', hc', hle⟩
      · exact Or.inl h
      · exact Or.inr ⟨c', List.mem_cons_of_mem c hc', hle⟩
    · by_cases hrc : cn.refcount = 0
      · rw [show childStep (removeNodeFuel fuel) (.ok dag) c = removeNodeFuel fuel dag c by
          simp [childStep, hcg, hrc]]
        obtain ⟨d1, hok, her1, hnd1, hcnone, hdel1⟩ :=
          IH dag c hnd hwf
            (fun n hn => by
              rw [hcg] at hn
              cases hn
              exact hrc)
            (hbounds c (List.mem_cons_self c rest))
        rw [hok]
        obtain ⟨d, hfold, her, hndd, hdel⟩ :=
          ih d1 hnd1 (her1.rankedWF hwf)
            (fun c' hc' =>
              lt_of_le_of_lt (her1.countGe_le hnd1 _)
                (hbounds c' (List.mem_cons_of_mem c hc')))
        refine ⟨d, hfold, her.trans her1, hndd, fun k' hk' => ?_⟩
        rcases hdel k' hk' with h | ⟨c', hc', hle⟩
        · rcases hdel1 k' h with h0 | hle0
          · exact Or.inl h0
          · exact Or.inr ⟨c, List.mem_cons_self c rest, hle0⟩
        · exact Or.inr ⟨c', List.mem_cons_of_mem c hc', hle⟩
      · rw [show childStep (removeNodeFuel fuel) (.ok dag) c = .ok dag by
          simp [childStep, hcg, hrc]]
        obtain ⟨d, hfold, her, hndd, hdel⟩ :=
          ih dag hnd hwf (fun c' hc' => hbounds c' (List.mem_cons_of_mem c hc'))
        refine ⟨d, hfold, her, hndd, fun k' hk' => ?_⟩
        rcases hdel k' hk' with h | ⟨c', hc', hle⟩
        · exact Or.inl h
        · exact Or.inr ⟨c', List.mem_cons_of_mem c hc', hle⟩

theorem removeFuel_ok :
    ∀ (fuel : Nat) (dag : MerkleDAG) (k : List Nat) (r : List Nat → Nat),
      NodupKeys dag → RankedWF dag r →
      (∀ n, dictGet dag.nodes k = some n → n.refcount = 0) →
      countGe dag r (r k) < fuel →
      ∃ d, removeNodeFuel fuel dag k = .ok d ∧ Erode d dag ∧ NodupKeys d ∧
        dictGet d.nodes k = none ∧
        (∀ k', dictGet d.nodes k' = none → dictGet dag.nodes k' = none ∨ r k ≤ r k') := by
  intro fuel
  induction fuel with
  | zero =>
    intro dag k r _ _ _ hcount
    omega
  | succ fuel ih =>
    intro dag k r hnd hwf hrc0 hcount
    rw [removeNodeFuel]
    rcases hget : dictGet dag.nodes k with _ | node
    · exact ⟨dag, rfl, Erode.refl _, hnd, hget, fun k' h => Or.inl h⟩
    · have hrc : ¬ node.refcount > 0 := by
        have := hrc0 node hget
        omega
      dsimp only
      rw [if_neg hrc]
      have hkeys1 : keysOf (detachStep dag node k) = keysOf dag :=
        detachStep_keys dag node k
      have her1 : Erode (detachStep dag node k) dag := detachStep_erode dag node k
      have hnd1 : NodupKeys (detachStep dag node k) := by
        unfold NodupKeys
        rw [hkeys1]
        exact hnd
      obtain ⟨nk, hnk, _, _, _, _, hchsub⟩ := get_of_erode_keys her1 hkeys1 hget
      have hchcopy : childrenAfterDetach (detachStep dag node k) k ⊆ node.children_keys := by
        unfold childrenAfterDetach
        rw [hnk]
        exact hchsub
      have hbounds : ∀ c ∈ childrenAfterDetach (detachStep dag node k) k,
          countGe (detachStep dag node k) r (r c) < fuel := by
        intro c hc
        have hedge : r k < r c := hwf k node hget c (hchcopy hc)
        have h1 : countGe dag r (r c) < countGe dag r (r k) :=
          countGe_lt_of_edge (mem_keysOf_of_get hget) hedge
        have h2 : countGe (detachStep dag node k) r (r c) = countGe dag r (r c) := by
          unfold countGe
          rw [hkeys1]
        omega
      obtain ⟨dag2, hfold, her2, hnd2, hdel2⟩ :=
        foldl_childStep_ok fuel r (fun dg kk => ih dg kk r) _ _ hnd1 (her1.rankedWF hwf) hbounds
      rw [hfold]
      dsimp only
      rcases hdel : dictGet dag2.nodes k with _ | n2
      · exfalso
        rcases hdel2 k hdel with h0 | ⟨c, hc, hle⟩
        · rw [hnk] at h0
          cases h0
        · have : r k < r c := hwf k node hget c (hchcopy hc)
          omega
      · refine ⟨⟨dictDel dag2.nodes k, dag2.root_keys,
          dag2.total_size_bytes - node.size_bytes⟩, rfl,
          (erode_dictDel dag2 k _).trans (her2.trans her1),
          nodup_dictDel k hnd2, dictGet_dictDel_self _ _, fun k' hk' => ?_⟩
        by_cases hkk : k' = k
        · right
          rw [hkk]
        · have hk'2 : dictGet dag2.nodes k' = none := by
            have hkd : dictGet (dictDel dag2.nodes k) k' = none := hk'
            rw [dictGet_dictDel_ne _ hkk] at hkd
            exact hkd
          rcases hdel2 k' hk'2 with h0 | ⟨c, hc, hle⟩
          · exact Or.inl (get_none_of_keys_eq hkeys1 h0)
          · have : r k < r c := hwf k node hget c (hchcopy hc)
            right
            omega

theorem remove_node_ok {dag : MerkleDAG} {k : List Nat} (r : List Nat → Nat)
    (hnd : NodupKeys dag) (hwf : RankedWF dag r)
    (hrc0 : ∀ n, dictGet dag.nodes k = some n → n.refcount = 0) :
    ∃ d, dag.remove_node k = .ok d ∧ Erode d dag ∧ NodupKeys d ∧
      dictGet d.nodes k = none := by
  obtain ⟨d, h1, h2, h3, h4, _⟩ :=
    removeFuel_ok (dag.nodes.length + 1) dag k r hnd hwf hrc0
      (countGe_lt_fuelBound dag r _)
  exact ⟨d, h1, h2, h3, h4⟩

/-! ### Eviction and the write path -/

theorem mem_lru (dag : MerkleDAG) (lim : Nat) {nd : MerkleNode}
    (h : nd ∈ dag.get_lru_nodes lim) :
    nd.refcount = 0 ∧ nd ∈ dag.nodes.map Prod.snd := by
  unfold MerkleDAG.get_lru_nodes at h
  have h2 := List.take_subset _ _ h
  have h3 : nd ∈ (dag.nodes.map Prod.snd).filter (fun n => n.refcount = 0) :=
    (List.perm_insertionSort _ _).mem_iff.mp h2
  have h4 := List.mem_filter.mp h3
  refine ⟨?_, h4.1⟩
  have := h4.2
  simpa using this

theorem get_of_mem_values {dag : MerkleDAG} (hnd : NodupKeys dag) (hkm : KeyMatch dag)
    {nd : MerkleNode} (h : nd ∈ dag.nodes.map Prod.snd) :
    dictGet dag.nodes nd.cache_key = some nd := by
  obtain ⟨e, he, hev⟩ := List.mem_map.mp h
  have hmem : (e.1, nd) ∈ dag.nodes := by
    rw [← hev]
    exact he
  have hget : dictGet dag.nodes e.1 = some nd := dictGet_of_mem_nodup hnd hmem
  have hck : nd.cache_key = e.1 := hkm e.1 nd hget
  rw [hck]
  exact hget

theorem evictLoop_ok (r : List Nat → Nat) (st0 : CMState) :
    ∀ (lst : List MerkleNode) (st : CMState) (toE acc : Int),
      NodupKeys st.dag → RankedWF st.dag r → Erode st.dag st0.dag →
      (∀ nd ∈ lst, ∀ n, dictGet st0.dag.nodes nd.cache_key = some n → n.refcount = 0) →
      ∃ st', evictLoop st lst toE acc = (st', none) ∧
        NodupKeys st'.dag ∧ RankedWF st'.dag r ∧ Erode st'.dag st0.dag := by
  intro lst
  induction lst with
  | nil =>
    intro st toE acc hnd hwf her _
    exact ⟨st, rfl, hnd, hwf, her⟩
  | cons nd rest ih =>
    intro st toE acc hnd hwf her hlst
    by_cases hstop : acc ≥ toE
    · exact ⟨st, by rw [evictLoop, if_pos hstop], hnd, hwf, her⟩
    · by_cases hpin : nd.refcount > 0
      · obtain ⟨st', hloop, h1, h2, h3⟩ :=
          ih st toE acc hnd hwf her
            (fun m hm => hlst m (List.mem_cons_of_mem nd hm))
        exact ⟨st', by rw [evictLoop, if_neg hstop, if_pos hpin]; exact hloop, h1, h2, h3⟩
      · have hrc0 : ∀ n, dictGet st.dag.nodes nd.cache_key = some n → n.refcount = 0 := by
          intro n hn
          obtain ⟨n₀, hn₀, _, _, hrc, _, _⟩ := her nd.cache_key n hn
          rw [hrc]
          exact hlst nd (List.mem_cons_self nd rest) n₀ hn₀
        obtain ⟨d, hok, herd, hndd, _⟩ := remove_node_ok r hnd hwf hrc0
        obtain ⟨st', hloop, h1, h2, h3⟩ :=
          ih ⟨dictDel st.files nd.cache_key, d⟩ toE (acc + nd.size_bytes)
            hndd (herd.rankedWF hwf) (herd.trans her)
            (fun m hm => hlst m (List.mem_cons_of_mem nd hm))
        refine ⟨st', ?_, h1, h2, h3⟩
        rw [evictLoop, if_neg hstop, if_neg hpin, hok]
        exact hloop

theorem enforce_ok (r : List Nat → Nat) (maxB : Int) (st : CMState)
    (hnd : NodupKeys st.dag) (hwf : RankedWF st.dag r) (hkm : KeyMatch st.dag) :
    ∃ st', enforce_cache_limit maxB st = (st', none) ∧
      NodupKeys st'.dag ∧ RankedWF st'.dag r ∧ Erode st'.dag st.dag := by
  by_cases hle : st.dag.get_total_size_bytes ≤ maxB
  · exact ⟨st, by rw [enforce_cache_limit, if_pos hle], hnd, hwf, Erode.refl _⟩
  · have hlst : ∀ nd ∈ st.dag.get_lru_nodes 1000,
        ∀ n, dictGet st.dag.nodes nd.cache_key = some n → n.refcount = 0 := by
      intro nd hnd' n hn
      obtain ⟨hrc, hmem⟩ := mem_lru st.dag 1000 hnd'
      have := get_of_mem_values hnd hkm hmem
      rw [this] at hn
      cases hn
      exact hrc
    obtain ⟨st', hloop, h1, h2, h3⟩ :=
      evictLoop_ok r st (st.dag.get_lru_nodes 1000) st
        (st.dag.get_total_size_bytes - maxB) 0 hnd hwf (Erode.refl _) hlst
    exact ⟨st', by rw [enforce_cache_limit, if_neg hle]; exact hloop, h1, h2, h3⟩

theorem write_cache_root_ok (mac : List Nat → List Nat) (maxB : Int) (st : CMState)
    (k data : List Nat) (now : Nat) (r : List Nat → Nat)
    (hnd : NodupKeys st.dag) (hwf : RankedWF st.dag r) (hkm : KeyMatch st.dag)
    (hlen : data.length ≤ MAX_SEGMENT_BYTES) :
    ∃ st' n, write_cache mac maxB st k data none now = (st', none) ∧
      dictGet st'.files k = some (mac data ++ data) ∧
      dictGet st'.dag.nodes k = some n := by
  have hgt : ¬ data.length > MAX_SEGMENT_BYTES := by omega
  obtain ⟨st1, henf, _, _, _⟩ := enforce_ok r maxB st hnd hwf hkm
  refine ⟨⟨dictSet st1.files k (mac data ++ data),
    ⟨dictSet st1.dag.nodes k ⟨k, none, [], 0, data.length + 32, now⟩,
      st1.dag.root_keys ++ [k],
      st1.dag.total_size_bytes + (data.length + 32)⟩⟩,
    ⟨k, none, [], 0, data.length + 32, now⟩, ?_, ?_, ?_⟩
  · rw [write_cache, if_neg hgt, henf]
    rfl
  · exact dictGet_dictSet_self _ _ _
  · exact dictGet_dictSet_self _ _ _

/-! ### Claim theorems -/

/-- C2: order-independence and determinism of the fingerprint.  For every
token sequence within the configured maximum length and every permutation of
it, `get_cache_key` returns the same result, and whenever it succeeds the
key has 32 bytes (`blake3` digest length).  Determinism is inherent: the
model is a pure function of its input. -/
theorem C2_fingerprint_order_independent (b3 : List Nat → List Nat)
    (hb3 : ∀ d, (b3 d).length = 32) (T T' : List Nat) (hperm : T.Perm T')
    (hlen : T.length ≤ MAX_TOKENS_PER_REQUEST) :
    get_cache_key b3 T = get_cache_key b3 T' ∧
    (∀ k, get_cache_key b3 T = .ok k → k.length = 32) := by
  have hsort : T.insertionSort (· ≤ ·) = T'.insertionSort (· ≤ ·) :=
    List.eq_of_perm_of_sorted
      ((List.perm_insertionSort (· ≤ ·) T).trans
        (hperm.trans (List.perm_insertionSort (· ≤ ·) T').symm))
      (List.sorted_insertionSort (· ≤ ·) T)
      (List.sorted_insertionSort (· ≤ ·) T')
  constructor
  · simp only [get_cache_key]
    rw [hperm.length_eq, hsort]
  · intro k hk
    simp only [get_cache_key] at hk
    rw [if_neg (by omega)] at hk
    by_cases hall : (T.insertionSort (· ≤ ·)).all (fun t => decide (t < 256)) = true
    · rw [if_pos hall] at hk
      cases hk
      exact hb3 _
    · rw [if_neg hall] at hk
      cases hk

/-- C2 witness: the concrete token lists `[3, 1, 2]` and `[1, 2, 3]` get the
same cache key. -/
theorem C2_witness :
    get_cache_key macStub [3, 1, 2] = get_cache_key macStub [1, 2, 3] :=
  (C2_fingerprint_order_independent macStub (fun _ => rfl) [3, 1, 2] [1, 2, 3]
    (by decide) (by decide)).1

/-- C3 counterexample: the single token 300 is well within the length limit,
yet `get_cache_key` fails — `bytes(sorted(tokens))` raises `ValueError`
because 300 is not a byte — and the error is not the typed input-too-large
rejection.  This refutes the claim that every token list of unsigned
integers within the length limit succeeds. -/
theorem C3_counterexample :
    List.length [300] ≤ MAX_TOKENS_PER_REQUEST ∧
    get_cache_key macStub [300] = .error .byteOutOfRange := by
  exact ⟨by decide, rfl⟩

/-- C3 amended: `get_cache_key` fails with the input-too-large error iff the
token count exceeds the configured maximum of 32768; within the limit it
succeeds with a 32-byte key provided every token fits in a byte (0..255),
and otherwise fails with the byte-range `ValueError` from `bytes(...)`. -/
theorem C3_amended (b3 : List Nat → List Nat) (hb3 : ∀ d, (b3 d).length = 32)
    (tokens : List Nat) :
    (get_cache_key b3 tokens = .error .inputTooLarge ↔
      tokens.length > MAX_TOKENS_PER_REQUEST) ∧
    (tokens.length ≤ MAX_TOKENS_PER_REQUEST → (∀ t ∈ tokens, t < 256) →
      ∃ k, get_cache_key b3 tokens = .ok k ∧ k.length = 32) := by
  constructor
  · constructor
    · intro h
      by_contra hle
      simp only [get_cache_key, if_neg hle] at h
      by_cases hall : (tokens.insertionSort (· ≤ ·)).all (fun t => decide (t < 256)) = true
      · rw [if_pos hall] at h
        cases h
      · rw [if_neg hall] at h
        cases h
    · intro h
      simp only [get_cache_key, if_pos h]
  · intro hlen hbytes
    have hall : (tokens.insertionSort (· ≤ ·)).all (fun t => decide (t < 256)) = true := by
      rw [List.all_eq_true]
      intro t ht
      have : t ∈ tokens := (List.mem_insertionSort (· ≤ ·)).mp ht
      simpa using hbytes t this
    refine ⟨b3 (tokens.insertionSort (· ≤ ·)), ?_, hb3 _⟩
    simp only [get_cache_key, if_neg (by omega : ¬ tokens.length > MAX_TOKENS_PER_REQUEST),
      if_pos hall]

/-- C3 witness: a 40000-token request is rejected with the typed
input-too-large error. -/
theorem C3_witness :
    get_cache_key macStub (List.replicate 40000 1) = .error .inputTooLarge :=
  (C3_amended macStub (fun _ => rfl) (List.replicate 40000 1)).1.mpr (by
    rw [List.length_replicate]
    decide)

set_option maxRecDepth 100000

/-- C5 counterexample: inserting the same key twice (a silent overwrite in
`add_node`) leaves the tracked counter at 10 while the nodes present sum to
5, so after this insert sequence the invariant claimed for any sequence of
operations fails. -/
theorem C5_counterexample :
    sumSizes (runOps MerkleDAG.empty
        [DagOp.add [1] none 5 0, DagOp.add [1] none 5 1]) ≠
      (runOps MerkleDAG.empty
        [DagOp.add [1] none 5 0, DagOp.add [1] none 5 1]).get_total_size_bytes := by
  decide

/-- C5 amended: after any sequence of `add_node` and `remove_node`
operations starting from the empty index in which every insertion uses a key
not currently present (no silent overwrite), the sum of `size_bytes` over
the nodes present equals the incrementally maintained
`get_total_size_bytes()` value. -/
theorem C5_amended (ops : List DagOp) (hfresh : FreshOps MerkleDAG.empty ops) :
    sumSizes (runOps MerkleDAG.empty ops) =
      (runOps MerkleDAG.empty ops).get_total_size_bytes := by
  have hinv : InvSum (runOps MerkleDAG.empty ops) :=
    runOps_invSum ops MerkleDAG.empty
      ⟨List.nodup_nil, rfl⟩ hfresh
  exact hinv.2

/-- C5 witness: a concrete fresh-key sequence of two inserts (one a child)
and a cascading removal keeps the counter equal to the stored sum. -/
theorem C5_witness :
    sumSizes (runOps MerkleDAG.empty
        [DagOp.add [1] none 5 0, DagOp.add [2] (some [1]) 7 1, DagOp.remove [1]]) =
      (runOps MerkleDAG.empty
        [DagOp.add [1] none 5 0, DagOp.add [2] (some [1]) 7 1,
          DagOp.remove [1]]).get_total_size_bytes :=
  C5_amended _ ⟨rfl, rfl, trivial, trivial⟩

/-- C6: inserting a child under a parent that already has `MAX_FANOUT`
children fails with the fanout-exceeded error, and the failure is atomic:
the parent keeps exactly its `MAX_FANOUT` children, the rejected key stays
absent, and the tracked total is unchanged (`add_child` raises before any
list or dict mutation). -/
theorem C6_fanout_bound (dag : MerkleDAG) (p k : List Nat) (pn : MerkleNode)
    (s t : Nat) (hp : dictGet dag.nodes p = some pn)
    (hfull : pn.children_keys.length = MAX_FANOUT)
    (hk : dictGet dag.nodes k = none) :
    dag.add_node k (some p) s t = .error .fanoutExceeded ∧
    runOp dag (.add k (some p) s t) = dag ∧
    dictGet (runOp dag (.add k (some p) s t)).nodes p = some pn ∧
    (dictGet (runOp dag (.add k (some p) s t)).nodes p).map
      (fun n => n.children_keys.length) = some MAX_FANOUT ∧
    dictGet (runOp dag (.add k (some p) s t)).nodes k = none ∧
    (runOp dag (.add k (some p) s t)).get_total_size_bytes =
      dag.get_total_size_bytes := by
  have herr : dag.add_node k (some p) s t = .error .fanoutExceeded := by
    simp only [MerkleDAG.add_node, hp]
    rw [if_pos (by omega)]
  have hrun : runOp dag (.add k (some p) s t) = dag := by
    rw [runOp, herr]
  refine ⟨herr, hrun, ?_, ?_, ?_, ?_⟩
  · rw [hrun, hp]
  · rw [hrun, hp]
    simp [hfull]
  · rw [hrun, hk]
  · rw [hrun]

/-- C6 witness: a concrete parent with 256 children rejects a 257th child. -/
theorem C6_witness :
    fullParentDag.add_node [1, 1] (some [0]) 5 9 = .error .fanoutExceeded :=
  (C6_fanout_bound fullParentDag [0] [1, 1]
    ⟨[0], none, (List.range MAX_FANOUT).map (fun i => [i + 1]), 0, 0, 0⟩ 5 9
    rfl (by simp) rfl).1

/-- C7: pin safety.  A node with positive refcount never appears in the list
returned by `get_lru_nodes`, whatever the limit; calling `remove_node` on it
fails with the pinned error, and the state is unchanged, so the node stays
in the index. -/
theorem C7_pin_safety (dag : MerkleDAG) (k : List Nat) (n : MerkleNode)
    (limit : Nat) (hget : dictGet dag.nodes k = some n) (hpin : n.refcount > 0) :
    n ∉ dag.get_lru_nodes limit ∧
    dag.remove_node k = .error (.pinned k) ∧
    runOp dag (.remove k) = dag ∧
    dictGet (runOp dag (.remove k)).nodes k = some n := by
  have hrm : dag.remove_node k = .error (.pinned k) := by
    rw [MerkleDAG.remove_node, removeNodeFuel, hget]
    dsimp only
    rw [if_pos hpin]
  have hrun : runOp dag (.remove k) = dag := by
    rw [runOp, hrm]
  refine ⟨?_, hrm, hrun, by rw [hrun, hget]⟩
  intro hmem
  have := (mem_lru dag limit hmem).1
  omega

/-- C7 witness: a concrete pinned node is rejected by `remove_node`. -/
theorem C7_witness :
    pinnedDag.remove_node [1] = .error (.pinned [1]) :=
  (C7_pin_safety pinnedDag [1] pinnedNode 10 rfl (by decide)).2.1

/-- C9: removing an absent key is a silent no-op: `remove_node` returns
without error and the returned state is the very same record — node map,
root list and total-size counter all unchanged. -/
theorem C9_remove_absent (dag : MerkleDAG) (k : List Nat)
    (h : dictGet dag.nodes k = none) : dag.remove_node k = .ok dag := by
  rw [MerkleDAG.remove_node, removeNodeFuel, h]

/-- C9 witness: removing from the empty index is a no-op. -/
theorem C9_witness : MerkleDAG.empty.remove_node [1] = .ok MerkleDAG.empty :=
  C9_remove_absent MerkleDAG.empty [1] rfl

/-- C10: a key with an on-disk file but no index node reads as a miss
(`None`) before any integrity verification, and the state — including the
file — is untouched. -/
theorem C10_read_requires_index (mac : List Nat → List Nat) (st : CMState)
    (k : List Nat) (now : Nat) (contents : List Nat)
    (hf : dictGet st.files k = some contents)
    (hn : dictGet st.dag.nodes k = none) :
    read_cache mac st k now = (st, .noIndexNode) ∧
    dictGet (read_cache mac st k now).1.files k = some contents := by
  have h : read_cache mac st k now = (st, .noIndexNode) := by
    rw [read_cache, hf]
    dsimp only
    rw [hn]
  exact ⟨h, by rw [h]; exact hf⟩

/-- C10 witness: a concrete orphan file is left in place and misses. -/
theorem C10_witness :
    read_cache macStub ⟨[([2], [5])], MerkleDAG.empty⟩ [2] 0 =
      (⟨[([2], [5])], MerkleDAG.empty⟩, .noIndexNode) :=
  (C10_read_requires_index macStub ⟨[([2], [5])], MerkleDAG.empty⟩ [2] 0 [5]
    rfl rfl).1

/-- C4 counterexample: with a 1000-byte budget, after the third 400-byte
write no eviction has happened — the oldest segment `[1]` is still indexed
and the tracked total is 1296 > 1000, because `_enforce_cache_limit` runs
before the write and compares only the pre-write total (864) against the
budget, never adding the incoming payload. -/
theorem C4_counterexample :
    ¬ scenarioBAfter3.dag.get_total_size_bytes ≤ 1000 ∧
    dictGet scenarioBAfter3.dag.nodes [1] ≠ none ∧
    dictGet scenarioBAfter3.files [1] ≠ none := by
  refine ⟨by decide, by decide, by decide⟩

/-- C4 amended: with the budget at 1000 bytes, three sequential 400-byte
unpinned writes all stay resident: the index then holds keys `[1]`, `[2]`,
`[3]` and `get_total_size_bytes()` is 1296 (each node counts payload plus
the 32-byte tag), exceeding the budget.  Eviction of the oldest segment by
`last_access` happens only when a fourth write is persisted: during that
write key `[1]` (file and index node) is evicted, and the state afterward
holds `[2]`, `[3]`, `[4]` — again totalling 1296, since the pre-write check
still ignores the incoming payload. -/
theorem C4_amended :
    scenarioBAfter3.dag.get_total_size_bytes = 1296 ∧
    keysOf scenarioBAfter3.dag = [[1], [2], [3]] ∧
    dictGet scenarioBAfter4.dag.nodes [1] = none ∧
    dictGet scenarioBAfter4.files [1] = none ∧
    keysOf scenarioBAfter4.dag = [[2], [3], [4]] ∧
    scenarioBAfter4.dag.get_total_size_bytes = 1296 := by
  refine ⟨by decide, by decide, by decide, by decide, by decide, by decide⟩

/-- C1 counterexample: write key `[7]` with the two-byte payload `[9, 9]`,
then read it back with no corruption: the returned memory map covers the
whole file — `mmap(fd, length=0)` maps from offset 0 — so its bytes are the
32-byte tag followed by the payload, not the payload alone. -/
theorem C1_counterexample :
    (read_cache macStub roundTripState [7] 2).2 =
      .view (List.replicate 32 0 ++ [9, 9]) ∧
    List.replicate 32 0 ++ [9, 9] ≠ [9, 9] := by
  refine ⟨by decide, by decide⟩

/-- C1 amended: for every key and payload within the segment size limit,
on a well-formed state (distinct keys, acyclic child links, keys recorded in
their nodes), `write(K, P)` succeeds and an uncorrupted `read(K)` returns a
view whose bytes are the 32-byte integrity tag followed by exactly P — the
payload is the view from byte 32 onward, not the whole view. -/
theorem C1_amended (mac : List Nat → List Nat) (maxB : Int) (st : CMState)
    (k data : List Nat) (now1 now2 : Nat) (r : List Nat → Nat)
    (hmac : ∀ d, (mac d).length = 32)
    (hnd : NodupKeys st.dag) (hwf : RankedWF st.dag r) (hkm : KeyMatch st.dag)
    (hlen : data.length ≤ MAX_SEGMENT_BYTES) :
    ∃ st1 st2, write_cache mac maxB st k data none now1 = (st1, none) ∧
      read_cache mac st1 k now2 = (st2, .view (mac data ++ data)) ∧
      (mac data ++ data).drop 32 = data := by
  obtain ⟨st1, n, hw, hf1, hn1⟩ :=
    write_cache_root_ok mac maxB st k data now1 r hnd hwf hkm hlen
  have hml := hmac data
  have htake : (mac data ++ data).take 32 = mac data := by
    rw [← hml]
    exact List.take_left _ _
  have hdrop : (mac data ++ data).drop 32 = data := by
    rw [← hml]
    exact List.drop_left _ _
  have hlen2 : (mac data ++ data).length - 32 = data.length := by
    rw [List.length_append, hml]
    omega
  have hmin : min MAX_SEGMENT_BYTES ((mac data ++ data).length - 32) = data.length := by
    rw [hlen2]
    exact min_eq_right hlen
  have hdata : ((mac data ++ data).drop 32).take
      (min MAX_SEGMENT_BYTES ((mac data ++ data).length - 32)) = data := by
    rw [hmin, hdrop, List.take_length]
  refine ⟨st1, ⟨st1.files, ⟨dictSet st1.dag.nodes k
    ⟨n.cache_key, n.parent_key, n.children_keys, n.refcount, n.size_bytes, now2⟩,
    st1.dag.root_keys, st1.dag.total_size_bytes⟩⟩, hw, ?_, hdrop⟩
  rw [read_cache, hf1]
  dsimp only
  rw [hn1]
  dsimp only
  rw [hdata, htake]
  rw [if_neg (by simp)]

/-- C1 witness: the round trip from the empty state at key `[7]` with
payload `[9, 9]`. -/
theorem C1_witness :
    ∃ st1 st2, write_cache macStub 1000000 CMState.empty [7] [9, 9] none 1 =
        (st1, none) ∧
      read_cache macStub st1 [7] 2 = (st2, .view (macStub [9, 9] ++ [9, 9])) ∧
      (macStub [9, 9] ++ [9, 9]).drop 32 = [9, 9] :=
  C1_amended macStub 1000000 CMState.empty [7] [9, 9] 1 2 (fun _ => 0)
    (fun _ => rfl) List.nodup_nil (fun _ _ h => nomatch h) (fun _ _ h => nomatch h)
    (by decide)

/-- C8 counterexample: a corrupt file whose index node is pinned is not
reported as a miss — the file is unlinked, but `remove_node` raises the
pinned `ValueError`, which escapes `read_cache` through its cleanup handler,
and the node remains in the index.  This refutes the claim for arbitrary
stored segments. -/
theorem C8_counterexample :
    (read_cache macStub pinnedCorruptState [1] 5).2 = .raised (.pinned [1]) ∧
    dictGet (read_cache macStub pinnedCorruptState [1] 5).1.dag.nodes [1] =
      some pinnedNode := by
  refine ⟨by decide, by decide⟩

/-- C8 amended: for every stored segment whose node is unpinned
(refcount 0), on a well-formed index (distinct keys, acyclic child links),
a tag mismatch makes the next read report the corruption as a miss, delete
the segment file, and remove the node from the index. -/
theorem C8_amended (mac : List Nat → List Nat) (st : CMState) (k : List Nat)
    (now : Nat) (contents : List Nat) (node : MerkleNode) (r : List Nat → Nat)
    (hf : dictGet st.files k = some contents)
    (hn : dictGet st.dag.nodes k = some node)
    (hrc : node.refcount = 0)
    (hnd : NodupKeys st.dag) (hwf : RankedWF st.dag r)
    (hbad : mac ((contents.drop 32).take
      (min MAX_SEGMENT_BYTES (contents.length - 32))) ≠ contents.take 32) :
    ∃ st', read_cache mac st k now = (st', .corruptionDetected) ∧
      dictGet st'.files k = none ∧ dictGet st'.dag.nodes k = none := by
  obtain ⟨d, hok, _, _, hnone⟩ :=
    remove_node_ok r hnd hwf (fun n2 hn2 => by
      rw [hn] at hn2
      cases hn2
      exact hrc)
  refine ⟨⟨dictDel st.files k, d⟩, ?_, dictGet_dictDel_self _ _, hnone⟩
  rw [read_cache, hf]
  dsimp only
  rw [hn]
  dsimp only
  rw [if_pos hbad, hok]

/-- C8 witness: the concrete unpinned corrupt segment at key `[1]` is
purged: miss reported, file gone, node gone. -/
theorem C8_witness :
    ∃ st', read_cache macStub unpinnedCorruptState [1] 5 =
        (st', .corruptionDetected) ∧
      dictGet st'.files [1] = none ∧ dictGet st'.dag.nodes [1] = none :=
  C8_amended macStub unpinnedCorruptState [1] 5 (List.replicate 32 1)
    ⟨[1], none, [], 0, 40, 3⟩ (fun _ => 0) rfl rfl rfl
    (by unfold NodupKeys; decide)
    (by
      intro k2 n2 h2 c hc
      simp only [unpinnedCorruptState, dictGet] at h2
      split at h2
      · cases h2
        simp at hc
      · cases h2)
    (by decide)
